import Mathlib

/-!
Verification of the DuplFiles duplicate-file finder
(`find_del_duplicates.py` / `del_duplicate.py`).

The Python source is shallowly embedded: file contents are byte lists,
filesystem metadata is an explicit `stat` oracle, and Python's stable
`list.sort(key=...)` is modelled by a stable insertion sort over an
integer key (any two stable sorts by the same key agree, so this is
extensionally Timsort-with-key).  Console output and the surrounding
terminal read loop are external collaborators and are not modelled;
the decision logic they wrap is.
-/

namespace DuplFiles

/-- Stable insertion of `x` into `l`: `x` is placed before the first element
whose key is not strictly smaller.  This is the placement a stable sort by
`key` performs, and models Python's `list.sort(key=...)` insertion behaviour. -/
def insertByKey {α : Type} (key : α → Int) (x : α) : List α → List α
  | [] => [x]
  | y :: ys => if key y < key x then y :: insertByKey key x ys else x :: y :: ys

/-- Stable sort by an integer key: the model of Python's `list.sort(key=...)`
(Timsort is stable, and any stable sort by the same key yields the same list). -/
def sortByKey {α : Type} (key : α → Int) : List α → List α
  | [] => []
  | x :: xs => insertByKey key x (sortByKey key xs)

/-! ## Dict-of-lists bucketing

`collections.defaultdict(list)` populated by `d[key(x)].append(x)` over a list:
keys appear in first-occurrence order, and each key maps to all input elements
carrying it, in input order.  `bucketKeys` is the key column, `bucketBy` the
whole mapping. -/

/-- The keys of a Python dict built by appending, in first-occurrence order. -/
def bucketKeys {α κ : Type} [DecidableEq κ] (key : α → κ) : List α → List κ
  | [] => []
  | x :: xs => key x :: (bucketKeys key xs).filter (fun k => k ≠ key x)

/-- `defaultdict(list)` grouping: association list from key to the elements
with that key, keys in first-occurrence order, values in input order. -/
def bucketBy {α κ : Type} [DecidableEq κ] (key : α → κ) (xs : List α) :
    List (κ × List α) :=
  (bucketKeys key xs).map (fun k => (k, xs.filter (fun y => key y = k)))

/-! ## Scanner and Grouper (`find_duplicates`)

A scanned regular file is a path together with its byte content; its size is
the byte count (what `os.path.getsize` returns for it).  The digest function
is a parameter (the source uses MD5 via `get_file_hash`; the spec treats
digest equality as content equality).  The scan input is the list of files in
`os.walk` order whose metadata was readable. -/

structure ScannedFile where
  path : String
  content : List Nat
  deriving DecidableEq, Repr

/-- `os.path.getsize`: byte size of the file's content. -/
def fileSize (f : ScannedFile) : Nat := f.content.length

/-- First pass of `find_duplicates`: `size_map`, grouping the files of size at
least `min_size` by size (`size_map[size].append(filepath)`). -/
def sizeMap (minSize : Nat) (files : List ScannedFile) :
    List (Nat × List ScannedFile) :=
  bucketBy fileSize (files.filter (fun f => minSize ≤ fileSize f))

/-- `potential_duplicates`: the size buckets with more than one member. -/
def potentialDuplicates (minSize : Nat) (files : List ScannedFile) :
    List (Nat × List ScannedFile) :=
  (sizeMap minSize files).filter (fun p => 1 < p.2.length)

/-- The files handed to `get_file_hash` in the second pass: the members of
the retained size buckets. -/
def hashedFiles (minSize : Nat) (files : List ScannedFile) : List ScannedFile :=
  (potentialDuplicates minSize files).flatMap (fun p => p.2)

/-- `find_duplicates`: group the hashed files by digest (`hash_map`) and keep
the digest buckets with more than one member. -/
def find_duplicates {δ : Type} [DecidableEq δ] (hash : List Nat → δ)
    (minSize : Nat) (files : List ScannedFile) : List (δ × List ScannedFile) :=
  (bucketBy (fun f => hash f.content) (hashedFiles minSize files)).filter
    (fun p => 1 < p.2.length)

def c3A : ScannedFile := ⟨"a", [1, 2]⟩
def c3B : ScannedFile := ⟨"b", [1, 2]⟩
def c3Files : List ScannedFile := [c3A, c3B, ⟨"c", [3]⟩]

def c7Files : List ScannedFile := [⟨"a", [1, 2]⟩, ⟨"b", [3, 4]⟩, ⟨"c", [9]⟩]

/-! ## Python string primitives

Kernel-computable models of the Python string operations the program uses
(`str.replace`, `str.split()`, `int(...)`, `str.startswith`, `s1 < s2`),
defined over the character list of a `String`. -/

/-- `pat` is a leading substring of `s` (Python `s.startswith(pat)`), on
character lists. -/
def startsWithChars : List Char → List Char → Bool
  | [], _ => true
  | _ :: _, [] => false
  | p :: ps, c :: cs => p = c && startsWithChars ps cs

/-- One pass of Python `str.replace` for the non-empty pattern `p0 :: ps`,
replacing every (leftmost, non-overlapping) occurrence with `rep`.  `fuel`
bounds the recursion; each step consumes at least one character, so
`fuel = s.length` is exact. -/
def replaceCharsAux (p0 : Char) (ps rep : List Char) : Nat → List Char → List Char
  | _, [] => []
  | 0, s => s
  | fuel + 1, c :: rest =>
      if startsWithChars (p0 :: ps) (c :: rest) then
        rep ++ replaceCharsAux p0 ps rep fuel (rest.drop ps.length)
      else c :: replaceCharsAux p0 ps rep fuel rest

/-- Python `s.replace(pat, rep)` (for the non-empty patterns the program
uses; an empty pattern is returned unchanged). -/
def pyReplace (s pat rep : String) : String :=
  match pat.data with
  | [] => s
  | p0 :: ps => String.mk (replaceCharsAux p0 ps rep.data s.data.length s.data)

/-- Python whitespace characters relevant to `str.split()`. -/
def isWs (c : Char) : Bool := c = ' ' || c = '\t' || c = '\n' || c = '\r'

/-- Python `s.split()` on character lists: split on whitespace runs and drop
empty tokens; `cur` is the reversed token under construction. -/
def splitWsAux (cur : List Char) : List Char → List (List Char)
  | [] => if cur.isEmpty then [] else [cur.reverse]
  | c :: rest =>
      if isWs c then
        if cur.isEmpty then splitWsAux [] rest
        else cur.reverse :: splitWsAux [] rest
      else splitWsAux (c :: cur) rest

/-- Python `s.split()`. -/
def pySplit (s : String) : List String := (splitWsAux [] s.data).map String.mk

def digitVal? (c : Char) : Option Nat :=
  if c = '0' then some 0 else if c = '1' then some 1 else if c = '2' then some 2
  else if c = '3' then some 3 else if c = '4' then some 4 else if c = '5' then some 5
  else if c = '6' then some 6 else if c = '7' then some 7 else if c = '8' then some 8
  else if c = '9' then some 9 else none

def natDigitsAux : List Char → Nat → Option Nat
  | [], acc => some acc
  | c :: rest, acc =>
      match digitVal? c with
      | some d => natDigitsAux rest (acc * 10 + d)
      | none => none

def natDigits? : List Char → Option Nat
  | [] => none
  | l => natDigitsAux l 0

/-- Python `int(tok)` on a whitespace-free token: optional sign, then decimal
digits. -/
def pyToInt? (s : String) : Option Int :=
  match s.data with
  | '-' :: rest => (natDigits? rest).map (fun n => -(n : Int))
  | '+' :: rest => (natDigits? rest).map (fun n => (n : Int))
  | l => (natDigits? l).map (fun n => (n : Int))

/-- Python string comparison `s < t`: lexicographic on code points. -/
def charsLt : List Char → List Char → Bool
  | [], [] => false
  | [], _ :: _ => true
  | _ :: _, [] => false
  | a :: as, b :: bs => if a = b then charsLt as bs else decide (a < b)

/-- Python `s1 < s2` on strings. -/
def strLt (s t : String) : Bool := charsLt s.data t.data

/-! ## Group Policy: `auto_delete` per-group decision

`auto_delete` iterates the duplicate groups; for each group it stats every
member (skipping those whose metadata read raises `OSError`), sorts the
survivors by the strategy key with Python's stable sort, keeps the head and
deletes the tail.  `stat` is the metadata oracle at decision time:
`stat p = some (mtime, size)` models successful `os.path.getmtime`/`getsize`,
`none` models `OSError`. -/

structure PathInfo where
  path : String
  mtime : Int
  size : Nat
  deriving DecidableEq, Repr

/-- The `paths_with_info` list of `auto_delete`: the group members whose
metadata could be read, in input order (the `len(p)` tuple component is
recovered as `path.length`). -/
def statInfos (stat : String → Option (Int × Nat)) (paths : List String) :
    List PathInfo :=
  paths.filterMap (fun p =>
    match stat p with
    | some (m, s) => some ⟨p, m, s⟩
    | none => none)

/-- `main`: `strategy = args.delete.replace('auto-', '')`. -/
def cliStrategy (deleteFlag : String) : String := pyReplace deleteFlag "auto-" ""

/-- The strategy dispatch of `auto_delete`: sort by mtime for `'oldest'`, by
negated mtime for `'newest'`, by path length for `'shortest_path'`, and leave
the list unsorted for any other strategy string (the dispatch has no `else`
branch). -/
def autoSortGroup (strategy : String) (l : List PathInfo) : List PathInfo :=
  if strategy = "oldest" then sortByKey (fun x => x.mtime) l
  else if strategy = "newest" then sortByKey (fun x => -x.mtime) l
  else if strategy = "shortest_path" then sortByKey (fun x => (x.path.length : Int)) l
  else l

/-- The per-group body of `auto_delete`: `none` models `continue` (no
surviving member); otherwise the kept file (`paths_with_info[0]`) and the
files passed to deletion (`paths_with_info[1:]`). -/
def auto_delete_group (strategy : String) (stat : String → Option (Int × Nat))
    (paths : List String) : Option (PathInfo × List PathInfo) :=
  match autoSortGroup strategy (statInfos stat paths) with
  | [] => none
  | k :: rest => some (k, rest)

/-! ## Interactive deletion: the per-group command dispatch

The decision logic of `interactive_delete`'s inner `while` loop, decoupled
from terminal I/O: given the (already stripped and lower-cased) command line
and the number of displayed entries (`len(paths_with_mtime)`, entry 0 being
the kept file), produce the action the loop takes.  Failed `int()` parses and
`IndexError` on a missing token both print the invalid-format message. -/

inductive IAction where
  | quit
  | skip
  | deleteAll
  | deleteAt : Int → IAction
  | rejectZero
  | rejectIndex : Int → IAction
  | rejectFormat
  | rejectUnknown
  deriving DecidableEq, Repr

def interpret_command (choice : String) (numEntries : Nat) : IAction :=
  if choice = "q" then .quit
  else if choice = "s" then .skip
  else if choice = "da" then .deleteAll
  else if startsWithChars "d ".data choice.data then
    match (pySplit choice).drop 1 with
    | [] => .rejectFormat
    | tok :: _ =>
        match pyToInt? tok with
        | none => .rejectFormat
        | some num =>
            if num = 0 then .rejectZero
            else if 1 ≤ num ∧ num < (numEntries : Int) then .deleteAt num
            else .rejectIndex num
  else .rejectUnknown

/-! ## Report Builder (`write_results`)

`write_results` re-stats every group member at render time; a member whose
stat raises `OSError` is kept with `(mtime, size) = (0, 0)`.  Groups are
rendered in decreasing member count (`sorted(duplicates.items(),
key=lambda x: -len(x[1]))`), members within a group in increasing mtime, both
with Python's stable sort and no further tie-break.  `datetime` formatting and
`format_size` (which formats through binary floats) are external formatting
functions, kept as parameters of the render environment; the generation
timestamp `datetime.now()` is likewise a parameter. -/

structure RenderEnv where
  fmtTime : Int → String
  fmtSize : Nat → String
  now : String

/-- The `paths_with_mtime` list of `write_results`/`interactive_delete`:
every member is retained; a failed stat contributes `(p, 0, 0)`. -/
def groupEntries (stat : String → Option (Int × Nat)) (paths : List String) :
    List PathInfo :=
  paths.map (fun p =>
    match stat p with
    | some (m, s) => ⟨p, m, s⟩
    | none => ⟨p, 0, 0⟩)

/-- `paths_with_mtime.sort(key=lambda x: x[1])`. -/
def groupSorted (stat : String → Option (Int × Nat)) (paths : List String) :
    List PathInfo :=
  sortByKey (fun e => e.mtime) (groupEntries stat paths)

/-- `file_size = paths_with_mtime[0][2]` (groups emitted by `find_duplicates`
always have at least two members, so the empty case is unreachable there). -/
def groupFileSize (stat : String → Option (Int × Nat)) (paths : List String) : Nat :=
  match groupSorted stat paths with
  | [] => 0
  | e :: _ => e.size

/-- `wasted_space = file_size * (len(paths) - 1)`. -/
def groupWasted (stat : String → Option (Int × Nat)) (paths : List String) : Nat :=
  groupFileSize stat paths * (paths.length - 1)

/-- `sorted(duplicates.items(), key=lambda x: -len(x[1]))`. -/
def sortGroupsForReport (dups : List (String × List String)) :
    List (String × List String) :=
  sortByKey (fun g => -((g.2.length : Int))) dups

def eq60 : String := String.mk (List.replicate 60 '=')

def dash50 : String := String.mk (List.replicate 50 '-')

/-- Python slicing `s[:n]` on code points. -/
def pyTake (s : String) (n : Nat) : String := String.mk (s.data.take n)

/-- One rendered group block: header with truncated digest and size, the
oldest member as `[ORIGINAL]`, the rest as `[DUPLICATE]`. -/
def groupBlock (env : RenderEnv) (stat : String → Option (Int × Nat)) (n : Nat)
    (digest : String) (paths : List String) : String :=
  match groupSorted stat paths with
  | [] => ""
  | e0 :: rest =>
      "Group " ++ toString n ++ " (Hash: " ++ pyTake digest 12 ++ "..., Size: " ++
        env.fmtSize e0.size ++ ")\n" ++
      dash50 ++ "\n" ++
      "  [ORIGINAL] " ++ e0.path ++ "\n" ++
      "             Modified: " ++ env.fmtTime e0.mtime ++ "\n" ++
      String.join (rest.map (fun e =>
        "  [DUPLICATE] " ++ e.path ++ "\n" ++
        "              Modified: " ++ env.fmtTime e.mtime ++ "\n")) ++
      "\n"

/-- The text `write_results` writes to the report file. -/
def write_results (env : RenderEnv) (stat : String → Option (Int × Nat))
    (directory : String) (duplicates : List (String × List String)) : String :=
  let header :=
    "Duplicate File Report\n" ++ eq60 ++ "\n" ++
    "Scanned directory: " ++ directory ++ "\n" ++
    "Generated: " ++ env.now ++ "\n" ++ eq60 ++ "\n\n"
  if duplicates.isEmpty then header ++ "No duplicate files found.\n"
  else
    let total_groups := duplicates.length
    let total_duplicates := (duplicates.map (fun g => g.2.length - 1)).sum
    let sorted := sortGroupsForReport duplicates
    let total_wasted := (sorted.map (fun g => groupWasted stat g.2)).sum
    header ++
    "Found " ++ toString total_groups ++ " groups of duplicates (" ++
      toString total_duplicates ++ " duplicate files)\n\n" ++
    String.join (sorted.enum.map (fun ie =>
      groupBlock env stat (ie.1 + 1) ie.2.1 ie.2.2)) ++
    eq60 ++ "\n" ++ "Summary:\n" ++
    "  Total duplicate groups: " ++ toString total_groups ++ "\n" ++
    "  Total duplicate files: " ++ toString total_duplicates ++ "\n" ++
    "  Potential space savings: " ++ env.fmtSize total_wasted ++ "\n"

/-! ## Deletion Engine (`delete_file`)

`delete_file` wraps its whole body in `try/except Exception`, so it never
raises: any failure of the underlying move/remove becomes
`(False, "Error: " + str(e))`.  The filesystem effects are explicit: the set
of names already present in the trash directory, and the outcomes of
`shutil.move` / `os.remove` (`Except.error e` models a raised exception with
message `str(e)`). -/

/-- `os.path.basename`: the part after the last `'/'`. -/
def basename (p : String) : String :=
  String.mk ((p.data.reverse.takeWhile (fun c => c ≠ '/')).reverse)

/-- The trash file name for disambiguation counter `c`: the plain
`f"{timestamp}_{filename}"` for `c = 0`, else `f"{timestamp}_{c}_{filename}"`. -/
def trashName (timestamp fname : String) (c : Nat) : String :=
  if c = 0 then timestamp ++ "_" ++ fname
  else timestamp ++ "_" ++ toString c ++ "_" ++ fname

/-- The `while os.path.exists(trash_path)` loop: the first candidate name not
already present in the trash.  Candidate names for distinct counters are
distinct, so among `existing.length + 2` candidates one is always free; the
fallback arm is unreachable. -/
def chooseTrashPath (existing : List String) (timestamp fname : String) : String :=
  match (List.range (existing.length + 2)).find?
      (fun c => trashName timestamp fname c ∉ existing) with
  | some c => trashName timestamp fname c
  | none => trashName timestamp fname (existing.length + 1)

structure FsOps where
  trashContents : List String
  moveResult : String → String → Except String Unit
  removeResult : String → Except String Unit

/-- `delete_file(filepath, use_trash)`: returns `(success, message)`; the
`timestamp` argument is `datetime.now().strftime('%Y%m%d_%H%M%S')`. -/
def delete_file (fs : FsOps) (timestamp : String) (filepath : String)
    (use_trash : Bool) : Bool × String :=
  if use_trash then
    let trash_path := chooseTrashPath fs.trashContents timestamp (basename filepath)
    match fs.moveResult filepath trash_path with
    | Except.ok _ => (true, "Moved to trash: " ++ trash_path)
    | Except.error e => (false, "Error: " ++ e)
  else
    match fs.removeResult filepath with
    | Except.ok _ => (true, "Permanently deleted")
    | Except.error e => (false, "Error: " ++ e)

/-- The per-file outcomes of a deletion batch (the `for path in ...[1:]`
loops of `auto_delete` and `interactive_delete`): `step` performs one
deletion and evolves the filesystem state, and every file is processed in
order regardless of earlier failures. -/
def deletionTrace {σ : Type} (step : σ → String → (Bool × String) × σ) :
    σ → List String → List (String × Bool × String)
  | _, [] => []
  | s, p :: ps =>
      let r := step s p
      (p, r.1.1, r.1.2) :: deletionTrace step r.2 ps

/-- The `(files_deleted, space_freed)` accumulation of the deletion loops:
both counters advance only on success, by 1 and by `file_size`. -/
def runDeletions {σ : Type} (step : σ → String → (Bool × String) × σ)
    (fileSize : Nat) : σ → List String → Nat × Nat
  | _, [] => (0, 0)
  | s, p :: ps =>
      let r := step s p
      let rest := runDeletions step fileSize r.2 ps
      if r.1.1 then (rest.1 + 1, rest.2 + fileSize) else rest

theorem perm_insertByKey {α : Type} (key : α → Int) (x : α) (l : List α) :
    (insertByKey key x l).Perm (x :: l) := by
  induction l with
  | nil => simp [insertByKey]
  | cons y ys ih =>
      by_cases h : key y < key x
      · simp only [insertByKey, if_pos h]
        exact (List.Perm.cons y ih).trans (List.Perm.swap x y ys)
      · simp [insertByKey, if_neg h]

theorem sortByKey_perm {α : Type} (key : α → Int) (l : List α) :
    (sortByKey key l).Perm l := by
  induction l with
  | nil => simp [sortByKey]
  | cons x xs ih =>
      exact (perm_insertByKey key x (sortByKey key xs)).trans (List.Perm.cons x ih)

theorem mem_insertByKey {α : Type} (key : α → Int) (x a : α) (l : List α) :
    a ∈ insertByKey key x l ↔ a = x ∨ a ∈ l := by
  rw [(perm_insertByKey key x l).mem_iff]
  simp

theorem pairwise_insertByKey {α : Type} (key : α → Int) (x : α) (l : List α)
    (h : l.Pairwise (fun a b => key a ≤ key b)) :
    (insertByKey key x l).Pairwise (fun a b => key a ≤ key b) := by
  induction l with
  | nil => simp [insertByKey]
  | cons y ys ih =>
      rw [List.pairwise_cons] at h
      by_cases hk : key y < key x
      · simp only [insertByKey, if_pos hk, List.pairwise_cons]
        refine ⟨fun z hz => ?_, ih h.2⟩
        rcases (mem_insertByKey key x z ys).mp hz with rfl | hmem
        · exact le_of_lt hk
        · exact h.1 z hmem
      · simp only [insertByKey, if_neg hk, List.pairwise_cons]
        have hxy : key x ≤ key y := le_of_not_lt hk
        refine ⟨fun z hz => ?_, h.1, h.2⟩
        rcases List.mem_cons.mp hz with h1 | hmem
        · rw [h1]; exact hxy
        · exact le_trans hxy (h.1 z hmem)

theorem sortByKey_pairwise {α : Type} (key : α → Int) (l : List α) :
    (sortByKey key l).Pairwise (fun a b => key a ≤ key b) := by
  induction l with
  | nil => simp [sortByKey]
  | cons x xs ih => exact pairwise_insertByKey key x (sortByKey key xs) ih

/-- Inserting `x` and then filtering on a key value `c` either prepends `x`
(when `key x = c`) or leaves the filter unchanged: the elements `x` is placed
after all have keys strictly below `key x`. -/
theorem filter_insertByKey {α : Type} (key : α → Int) (c : Int) (x : α) (l : List α) :
    (insertByKey key x l).filter (fun y => key y = c) =
      if key x = c then x :: l.filter (fun y => key y = c)
      else l.filter (fun y => key y = c) := by
  induction l with
  | nil =>
      by_cases hxc : key x = c <;>
        simp [insertByKey, List.filter_cons, hxc]
  | cons y ys ih =>
      by_cases hk : key y < key x
      · simp only [insertByKey, if_pos hk, List.filter_cons]
        by_cases hyc : key y = c
        · by_cases hxc : key x = c
          · exfalso; rw [hyc, hxc] at hk; exact lt_irrefl c hk
          · simp [hyc, hxc, ih]
        · simp [hyc, ih]
      · simp only [insertByKey, if_neg hk, List.filter_cons]
        by_cases hxc : key x = c <;> simp [hxc]

/-- Stability of `sortByKey` expressed through filters: for every key value,
the subsequence of elements carrying that key appears in the sorted list in
exactly its input order. -/
theorem sortByKey_filter {α : Type} (key : α → Int) (c : Int) (l : List α) :
    (sortByKey key l).filter (fun y => key y = c) = l.filter (fun y => key y = c) := by
  induction l with
  | nil => simp [sortByKey]
  | cons x xs ih =>
      simp only [sortByKey, filter_insertByKey, ih, List.filter_cons]
      by_cases hxc : key x = c <;> simp [hxc]

theorem sortByKey_eq_nil {α : Type} (key : α → Int) (l : List α)
    (h : sortByKey key l = []) : l = [] := by
  have := (sortByKey_perm key l).length_eq
  rw [h] at this
  exact List.length_eq_zero.mp this.symm

/-- The head of a stable sort by `key` is a member of the input that minimises
the key, and among the key-minimisers it is the one that occurs first in the
input: ties are broken by input position. -/
theorem sortByKey_head {α : Type} (key : α → Int) (l : List α) (k : α) (rest : List α)
    (h : sortByKey key l = k :: rest) :
    k ∈ l ∧ (∀ y ∈ l, key k ≤ key y) ∧
      (l.filter (fun y => key y ≤ key k)).head? = some k := by
  have hperm := sortByKey_perm key l
  have hkmem : k ∈ l := by
    have : k ∈ sortByKey key l := by rw [h]; exact List.mem_cons_self k rest
    exact hperm.mem_iff.mp this
  have hmin : ∀ y ∈ l, key k ≤ key y := by
    intro y hy
    have : y ∈ sortByKey key l := hperm.mem_iff.mpr hy
    rw [h] at this
    rcases List.mem_cons.mp this with h1 | hrest
    · rw [h1]
    · have hp := sortByKey_pairwise key l
      rw [h, List.pairwise_cons] at hp
      exact hp.1 y hrest
  refine ⟨hkmem, hmin, ?_⟩
  clear hperm hkmem hmin
  induction l generalizing k rest with
  | nil => simp [sortByKey] at h
  | cons x xs ih =>
      simp only [sortByKey] at h
      rcases hsort : sortByKey key xs with _ | ⟨h0, t0⟩
      · rw [hsort] at h
        simp only [insertByKey] at h
        rcases h with ⟨rfl, rfl⟩
        simp [List.filter_cons]
      · rw [hsort] at h
        by_cases hx : key h0 < key x
        · simp only [insertByKey, if_pos hx] at h
          obtain ⟨he, -⟩ := List.cons.inj h
          subst he
          have hxk : ¬ (key x ≤ key h0) := not_le.mpr hx
          simp only [List.filter_cons, decide_eq_true_eq, hxk, if_false]
          exact ih h0 t0 hsort
        · simp only [insertByKey, if_neg hx] at h
          obtain ⟨he, -⟩ := List.cons.inj h
          subst he
          simp [List.filter_cons]

/-- Two stable sorts of lists that are permutations of each other agree when
the key is duplicate-free on the list: the sort order is then fully determined
by the keys. -/
theorem sortByKey_eq_of_perm {α : Type} (key : α → Int) (l₁ l₂ : List α)
    (hp : l₁.Perm l₂) (hnd : (l₁.map key).Nodup) :
    sortByKey key l₁ = sortByKey key l₂ := by
  have hperm : (sortByKey key l₁).Perm (sortByKey key l₂) :=
    ((sortByKey_perm key l₁).trans hp).trans (sortByKey_perm key l₂).symm
  have hstrict : ∀ (l : List α), l.Perm l₁ →
      (sortByKey key l).Pairwise (fun a b => key a < key b) := by
    intro l hl
    have hle := sortByKey_pairwise key l
    have hndl : ((sortByKey key l).map key).Nodup := by
      have h1 : ((sortByKey key l).map key).Perm (l₁.map key) :=
        ((sortByKey_perm key l).trans hl).map key
      exact h1.nodup_iff.mpr hnd
    have hne : (sortByKey key l).Pairwise (fun a b => key a ≠ key b) :=
      List.pairwise_map.mp hndl
    have hcomb := List.Pairwise.and hle hne
    exact hcomb.imp (fun h => lt_of_le_of_ne h.1 h.2)
  have hs₁ := hstrict l₁ (List.Perm.refl l₁)
  have hs₂ := hstrict l₂ hp.symm
  have : IsAntisymm α (fun a b => key a < key b) :=
    ⟨fun a b h1 h2 => absurd (lt_trans h1 h2) (lt_irrefl _)⟩
  exact List.eq_of_perm_of_sorted hperm hs₁ hs₂

theorem mem_bucketKeys {α κ : Type} [DecidableEq κ] (key : α → κ) (xs : List α)
    (x : α) (hx : x ∈ xs) : key x ∈ bucketKeys key xs := by
  induction xs with
  | nil => cases hx
  | cons a as ih =>
      rcases List.mem_cons.mp hx with h1 | hmem
      · rw [h1]; exact List.mem_cons_self _ _
      · by_cases hk : key x = key a
        · rw [hk]; exact List.mem_cons_self _ _
        · exact List.mem_cons_of_mem _ (List.mem_filter.mpr ⟨ih hmem, by simpa using hk⟩)

/-- Soundness of the dict model: every entry of the mapping is the filter of
the input on its key. -/
theorem bucketBy_sound {α κ : Type} [DecidableEq κ] (key : α → κ) (xs : List α)
    (k : κ) (l : List α) (h : (k, l) ∈ bucketBy key xs) :
    l = xs.filter (fun y => key y = k) := by
  rcases List.mem_map.mp h with ⟨k0, -, heq⟩
  have h1 : k0 = k := congrArg Prod.fst heq
  have h2 := congrArg Prod.snd heq
  simp only at h2
  rw [← h2, h1]

/-- Completeness of the dict model: every input element's key owns an entry,
namely the filter of the input on that key. -/
theorem bucketBy_complete {α κ : Type} [DecidableEq κ] (key : α → κ) (xs : List α)
    (x : α) (hx : x ∈ xs) :
    (key x, xs.filter (fun y => key y = key x)) ∈ bucketBy key xs :=
  List.mem_map.mpr ⟨key x, mem_bucketKeys key xs x hx, rfl⟩

theorem one_lt_length_of_two_mem {α : Type} (l : List α) (a b : α)
    (ha : a ∈ l) (hb : b ∈ l) (hab : a ≠ b) : 1 < l.length := by
  match l with
  | [] => cases ha
  | [x] =>
      rw [List.mem_singleton] at ha hb
      exact absurd (ha.trans hb.symm) hab
  | x :: y :: t => simp [List.length_cons]

/-- C3: files with identical byte content of size at least `minSize` land in
one duplicate group; members of one group have identical content whenever the
digest is injective (the hash-as-equality assumption); every emitted group has
at least two members. -/
theorem find_duplicates_grouping {δ : Type} [DecidableEq δ] (hash : List Nat → δ)
    (minSize : Nat) (files : List ScannedFile) :
    (∀ f1 f2, f1 ∈ files → f2 ∈ files → f1 ≠ f2 → f1.content = f2.content →
       minSize ≤ fileSize f1 →
       ∃ g, g ∈ find_duplicates hash minSize files ∧ f1 ∈ g.2 ∧ f2 ∈ g.2) ∧
    (Function.Injective hash →
       ∀ g, g ∈ find_duplicates hash minSize files →
         ∀ f1 f2, f1 ∈ g.2 → f2 ∈ g.2 → f1.content = f2.content) ∧
    (∀ g, g ∈ find_duplicates hash minSize files → 2 ≤ g.2.length) := by
  refine ⟨?_, ?_, ?_⟩
  · intro f1 f2 h1 h2 hne hc hsz
    have hs2 : fileSize f2 = fileSize f1 := by
      simp [fileSize, hc]
    have hf1 : f1 ∈ files.filter (fun f => minSize ≤ fileSize f) :=
      List.mem_filter.mpr ⟨h1, by simpa using hsz⟩
    have hf2 : f2 ∈ files.filter (fun f => minSize ≤ fileSize f) :=
      List.mem_filter.mpr ⟨h2, by simp [hs2]; exact hsz⟩
    set filtered := files.filter (fun f => minSize ≤ fileSize f) with hfil
    have hB1 : f1 ∈ filtered.filter (fun y => fileSize y = fileSize f1) :=
      List.mem_filter.mpr ⟨hf1, by simp⟩
    have hB2 : f2 ∈ filtered.filter (fun y => fileSize y = fileSize f1) :=
      List.mem_filter.mpr ⟨hf2, by simp [hs2]⟩
    have hbucket : (fileSize f1, filtered.filter (fun y => fileSize y = fileSize f1)) ∈
        sizeMap minSize files := bucketBy_complete fileSize filtered f1 hf1
    have hlen : 1 < (filtered.filter (fun y => fileSize y = fileSize f1)).length :=
      one_lt_length_of_two_mem _ f1 f2 hB1 hB2 hne
    have hpot : (fileSize f1, filtered.filter (fun y => fileSize y = fileSize f1)) ∈
        potentialDuplicates minSize files :=
      List.mem_filter.mpr ⟨hbucket, by simpa using hlen⟩
    have hh1 : f1 ∈ hashedFiles minSize files :=
      List.mem_flatMap.mpr ⟨_, hpot, hB1⟩
    have hh2 : f2 ∈ hashedFiles minSize files :=
      List.mem_flatMap.mpr ⟨_, hpot, hB2⟩
    have hH1 : f1 ∈ (hashedFiles minSize files).filter
        (fun y => hash y.content = hash f1.content) :=
      List.mem_filter.mpr ⟨hh1, by simp⟩
    have hH2 : f2 ∈ (hashedFiles minSize files).filter
        (fun y => hash y.content = hash f1.content) :=
      List.mem_filter.mpr ⟨hh2, by simp [hc]⟩
    have hhb : (hash f1.content, (hashedFiles minSize files).filter
        (fun y => hash y.content = hash f1.content)) ∈
        bucketBy (fun f => hash f.content) (hashedFiles minSize files) :=
      bucketBy_complete (fun f => hash f.content) (hashedFiles minSize files) f1 hh1
    have hlen2 : 1 < ((hashedFiles minSize files).filter
        (fun y => hash y.content = hash f1.content)).length :=
      one_lt_length_of_two_mem _ f1 f2 hH1 hH2 hne
    exact ⟨_, List.mem_filter.mpr ⟨hhb, by simpa using hlen2⟩, hH1, hH2⟩
  · intro hinj g hg f1 f2 h1 h2
    have hgb : g ∈ bucketBy (fun f => hash f.content) (hashedFiles minSize files) :=
      (List.mem_filter.mp hg).1
    have hsound := bucketBy_sound (fun f => hash f.content)
      (hashedFiles minSize files) g.1 g.2 (by simpa using hgb)
    rw [hsound] at h1 h2
    have e1 : hash f1.content = g.1 := by simpa using (List.mem_filter.mp h1).2
    have e2 : hash f2.content = g.1 := by simpa using (List.mem_filter.mp h2).2
    exact hinj (e1.trans e2.symm)
  · intro g hg
    have := (List.mem_filter.mp hg).2
    simp only [decide_eq_true_eq] at this
    omega

theorem find_duplicates_grouping_witness :
    (∃ g, g ∈ find_duplicates (fun c : List Nat => c) 0 c3Files ∧
        c3A ∈ g.2 ∧ c3B ∈ g.2) ∧
    c3A.content = c3B.content ∧
    2 ≤ ((([1, 2] : List Nat), [c3A, c3B]) : List Nat × List ScannedFile).2.length :=
  ⟨(find_duplicates_grouping (fun c => c) 0 c3Files).1 c3A c3B (by decide) (by decide)
      (by decide) (by decide) (by decide),
   (find_duplicates_grouping (fun c => c) 0 c3Files).2.1 (fun a b h => h)
      (([1, 2], [c3A, c3B])) (by decide) c3A c3B (by decide) (by decide),
   (find_duplicates_grouping (fun c => c) 0 c3Files).2.2
      (([1, 2], [c3A, c3B])) (by decide)⟩

/-- C7: a file reaches the hasher only when its size is at least `minSize` and
some other scanned file shares its size; and every member of every size bucket
has size at least `minSize`. -/
theorem hashed_only_if_shared_size (minSize : Nat) (files : List ScannedFile) :
    (∀ f, f ∈ hashedFiles minSize files →
       minSize ≤ fileSize f ∧
         1 < (files.filter (fun y => fileSize y = fileSize f)).length) ∧
    (∀ k l, (k, l) ∈ sizeMap minSize files → ∀ g, g ∈ l → minSize ≤ fileSize g) := by
  constructor
  · intro f hf
    rcases List.mem_flatMap.mp hf with ⟨p, hp, hfp⟩
    have hpot := List.mem_filter.mp hp
    have hsound := bucketBy_sound fileSize
      (files.filter (fun y => minSize ≤ fileSize y)) p.1 p.2 (by simpa using hpot.1)
    rw [hsound] at hfp
    have hfin := List.mem_filter.mp hfp
    have hmin : minSize ≤ fileSize f := by
      simpa using (List.mem_filter.mp hfin.1).2
    have hkey : fileSize f = p.1 := by simpa using hfin.2
    refine ⟨hmin, ?_⟩
    have hlen : 1 < p.2.length := by simpa using hpot.2
    rw [hsound, ← hkey] at hlen
    have hsub : List.Sublist
        ((files.filter (fun y => minSize ≤ fileSize y)).filter
          (fun y => fileSize y = fileSize f))
        (files.filter (fun y => fileSize y = fileSize f)) :=
      List.Sublist.filter _ (List.filter_sublist files)
    exact lt_of_lt_of_le hlen hsub.length_le
  · intro k l hkl g hg
    have hsound := bucketBy_sound fileSize
      (files.filter (fun y => minSize ≤ fileSize y)) k l hkl
    rw [hsound] at hg
    simpa using (List.mem_filter.mp (List.mem_filter.mp hg).1).2

theorem hashed_only_if_shared_size_witness :
    (0 ≤ fileSize ⟨"a", [1, 2]⟩ ∧
      1 < (c7Files.filter (fun y => fileSize y = fileSize ⟨"a", [1, 2]⟩)).length) ∧
    0 ≤ fileSize ⟨"a", [1, 2]⟩ :=
  ⟨(hashed_only_if_shared_size 0 c7Files).1 ⟨"a", [1, 2]⟩ (by decide),
   (hashed_only_if_shared_size 0 c7Files).2 2 [⟨"a", [1, 2]⟩, ⟨"b", [3, 4]⟩]
      (by decide) ⟨"a", [1, 2]⟩ (by decide)⟩

theorem autoSortGroup_perm (strategy : String) (l : List PathInfo) :
    (autoSortGroup strategy l).Perm l := by
  unfold autoSortGroup
  split_ifs
  · exact sortByKey_perm _ _
  · exact sortByKey_perm _ _
  · exact sortByKey_perm _ _
  · exact List.Perm.refl l

theorem statInfos_paths_sublist (stat : String → Option (Int × Nat))
    (paths : List String) :
    List.Sublist ((statInfos stat paths).map PathInfo.path) paths := by
  induction paths with
  | nil => simp [statInfos]
  | cons p ps ih =>
      simp only [statInfos, List.filterMap_cons]
      cases hsp : stat p with
      | none => exact ih.cons p
      | some ms =>
          rcases ms with ⟨m, sz⟩
          simpa using ih.cons₂ p

theorem statInfos_mem (stat : String → Option (Int × Nat)) (paths : List String)
    (x : PathInfo) (hx : x ∈ statInfos stat paths) :
    stat x.path = some (x.mtime, x.size) := by
  rcases List.mem_filterMap.mp hx with ⟨p, -, hp⟩
  cases hsp : stat p with
  | none => rw [hsp] at hp; cases hp
  | some ms =>
      rcases ms with ⟨m, sz⟩
      rw [hsp] at hp
      simp only [Option.some.injEq] at hp
      rw [← hp]
      exact hsp

/-- C1: the Deletion Engine never receives the kept file.  In `auto_delete`
the deletion loop runs over `paths_with_info[1:]` only, so (for a group with
distinct member paths) the kept path is not among the deleted ones; in
`interactive_delete` the command `d 0` is always answered with the
cannot-delete-the-original rejection, and every accepted `d <num>` targets an
index in `[1, len(paths_with_mtime))`, never the kept index 0. -/
theorem keep_never_deleted :
    (∀ strategy stat paths k rest, paths.Nodup →
       auto_delete_group strategy stat paths = some (k, rest) →
       k.path ∉ rest.map PathInfo.path) ∧
    (∀ n : Nat, interpret_command "d 0" n = IAction.rejectZero) ∧
    (∀ choice n i, interpret_command choice n = IAction.deleteAt i →
       1 ≤ i ∧ i < (n : Int)) := by
  refine ⟨?_, fun n => rfl, ?_⟩
  · intro strategy stat paths k rest hnd h
    unfold auto_delete_group at h
    rcases hs : autoSortGroup strategy (statInfos stat paths) with _ | ⟨k0, rest0⟩
    · rw [hs] at h; cases h
    · rw [hs] at h
      simp only [Option.some.injEq, Prod.mk.injEq] at h
      obtain ⟨rfl, rfl⟩ := h
      have hnd2 : ((statInfos stat paths).map PathInfo.path).Nodup :=
        (statInfos_paths_sublist stat paths).nodup hnd
      have hperm := (autoSortGroup_perm strategy (statInfos stat paths)).map PathInfo.path
      rw [hs] at hperm
      have hnd3 : ((k0 :: rest0).map PathInfo.path).Nodup := hperm.nodup_iff.mpr hnd2
      simp only [List.map_cons, List.nodup_cons] at hnd3
      exact hnd3.1
  · intro choice n i h
    unfold interpret_command at h
    split at h
    · cases h
    · split at h
      · cases h
      · split at h
        · cases h
        · split at h
          · split at h
            · cases h
            · split at h
              · cases h
              · split at h
                · cases h
                · split at h
                  · rename_i hcond
                    injection h with h2
                    rw [← h2]
                    exact hcond
                  · cases h
          · cases h

theorem keep_never_deleted_witness :
    ((⟨"a", 1, 1⟩ : PathInfo).path ∉ [(⟨"b", 2, 1⟩ : PathInfo)].map PathInfo.path) ∧
    interpret_command "d 0" 3 = IAction.rejectZero ∧
    (1 ≤ (2 : Int) ∧ (2 : Int) < ((3 : Nat) : Int)) :=
  ⟨keep_never_deleted.1 "oldest"
      (fun p => if p = "a" then some (1, 1) else if p = "b" then some (2, 1) else none)
      ["a", "b"] ⟨"a", 1, 1⟩ [⟨"b", 2, 1⟩] (by decide) (by decide),
   keep_never_deleted.2.1 3,
   keep_never_deleted.2.2 "d 2" 3 2 (by decide)⟩

/-- C2: the `--delete auto-shortest` path is broken.  `main` computes the
strategy as `"auto-shortest".replace("auto-", "") = "shortest"`, but
`auto_delete` dispatches on `"shortest_path"`, so no branch matches, the
group is never sorted, and the keep file is simply the first member in input
order.  Here the group `["/bb", "/a"]` keeps `"/bb"` and deletes `"/a"`
although `"/a"` is the strictly shorter path, contradicting the claim (and
the program's own CLI help and docstring). -/
theorem auto_shortest_keeps_first_not_shortest :
    cliStrategy "auto-shortest" = "shortest" ∧
    auto_delete_group (cliStrategy "auto-shortest")
        (fun p => if p = "/bb" then some (5, 1) else if p = "/a" then some (3, 1) else none)
        ["/bb", "/a"] =
      some (⟨"/bb", 5, 1⟩, [⟨"/a", 3, 1⟩]) ∧
    "/a".length < "/bb".length := by
  exact ⟨by decide, by decide, by decide⟩

/-- C5 counterexample: with the `oldest` strategy and two members whose
modification times tie, the sort leaves the input order unchanged, so the
member with the lexically greater path (`"/b"`) stays first and is kept; the
claimed tie-break by lexical path order would keep `"/a"`. -/
theorem strategy_tie_not_broken_by_path :
    autoSortGroup "oldest" [⟨"/b", 5, 1⟩, ⟨"/a", 5, 1⟩] =
      [⟨"/b", 5, 1⟩, ⟨"/a", 5, 1⟩] ∧
    (⟨"/b", 5, 1⟩ : PathInfo).mtime = (⟨"/a", 5, 1⟩ : PathInfo).mtime ∧
    strLt "/a" "/b" = true := by
  exact ⟨by decide, by decide, by decide⟩

/-- C5 amended: each strategy orders the group by its metadata key alone,
with a stable sort; a tie in the key is broken by input position — the kept
file is the first member in input order among those minimising the key — and
not by lexical path order. -/
theorem strategy_orders_by_key_ties_by_input :
    (∀ (l : List PathInfo) k rest, autoSortGroup "oldest" l = k :: rest →
       k ∈ l ∧ (∀ y ∈ l, k.mtime ≤ y.mtime) ∧
         (l.filter (fun y => y.mtime ≤ k.mtime)).head? = some k) ∧
    (∀ (l : List PathInfo) k rest, autoSortGroup "newest" l = k :: rest →
       k ∈ l ∧ (∀ y ∈ l, y.mtime ≤ k.mtime) ∧
         (l.filter (fun y => k.mtime ≤ y.mtime)).head? = some k) ∧
    (∀ (l : List PathInfo) k rest, autoSortGroup "shortest_path" l = k :: rest →
       k ∈ l ∧ (∀ y ∈ l, k.path.length ≤ y.path.length) ∧
         (l.filter (fun y => y.path.length ≤ k.path.length)).head? = some k) := by
  refine ⟨?_, ?_, ?_⟩
  · intro l k rest h
    have e : autoSortGroup "oldest" l = sortByKey (fun x => x.mtime) l := rfl
    rw [e] at h
    exact sortByKey_head _ l k rest h
  · intro l k rest h
    have e : autoSortGroup "newest" l = sortByKey (fun x => -x.mtime) l := rfl
    rw [e] at h
    obtain ⟨hk, hmin, hfirst⟩ := sortByKey_head _ l k rest h
    refine ⟨hk, fun y hy => by have := hmin y hy; omega, ?_⟩
    have hcong : l.filter (fun y => -y.mtime ≤ -k.mtime) =
        l.filter (fun y => k.mtime ≤ y.mtime) :=
      List.filter_congr (fun x _ => by rw [decide_eq_decide]; omega)
    rw [← hcong]
    exact hfirst
  · intro l k rest h
    have e : autoSortGroup "shortest_path" l =
        sortByKey (fun x => (x.path.length : Int)) l := rfl
    rw [e] at h
    obtain ⟨hk, hmin, hfirst⟩ := sortByKey_head _ l k rest h
    refine ⟨hk, fun y hy => by exact_mod_cast hmin y hy, ?_⟩
    have hcong : l.filter (fun y => ((y.path.length : Int)) ≤ ((k.path.length : Int))) =
        l.filter (fun y => y.path.length ≤ k.path.length) :=
      List.filter_congr (fun x _ => by rw [decide_eq_decide]; exact_mod_cast Iff.rfl)
    rw [← hcong]
    exact hfirst

theorem strategy_orders_witness :
    ((⟨"y", 1, 1⟩ : PathInfo) ∈ [(⟨"xx", 2, 1⟩ : PathInfo), ⟨"y", 1, 1⟩] ∧
      (∀ y ∈ [(⟨"xx", 2, 1⟩ : PathInfo), ⟨"y", 1, 1⟩],
        (⟨"y", 1, 1⟩ : PathInfo).mtime ≤ y.mtime) ∧
      ([(⟨"xx", 2, 1⟩ : PathInfo), ⟨"y", 1, 1⟩].filter
        (fun y => y.mtime ≤ (⟨"y", 1, 1⟩ : PathInfo).mtime)).head? = some ⟨"y", 1, 1⟩) ∧
    ((⟨"xx", 2, 1⟩ : PathInfo) ∈ [(⟨"xx", 2, 1⟩ : PathInfo), ⟨"y", 1, 1⟩] ∧
      (∀ y ∈ [(⟨"xx", 2, 1⟩ : PathInfo), ⟨"y", 1, 1⟩],
        y.mtime ≤ (⟨"xx", 2, 1⟩ : PathInfo).mtime) ∧
      ([(⟨"xx", 2, 1⟩ : PathInfo), ⟨"y", 1, 1⟩].filter
        (fun y => (⟨"xx", 2, 1⟩ : PathInfo).mtime ≤ y.mtime)).head? = some ⟨"xx", 2, 1⟩) ∧
    ((⟨"y", 1, 1⟩ : PathInfo) ∈ [(⟨"xx", 2, 1⟩ : PathInfo), ⟨"y", 1, 1⟩] ∧
      (∀ y ∈ [(⟨"xx", 2, 1⟩ : PathInfo), ⟨"y", 1, 1⟩],
        (⟨"y", 1, 1⟩ : PathInfo).path.length ≤ y.path.length) ∧
      ([(⟨"xx", 2, 1⟩ : PathInfo), ⟨"y", 1, 1⟩].filter
        (fun y => y.path.length ≤ (⟨"y", 1, 1⟩ : PathInfo).path.length)).head? =
          some ⟨"y", 1, 1⟩) :=
  ⟨strategy_orders_by_key_ties_by_input.1 [⟨"xx", 2, 1⟩, ⟨"y", 1, 1⟩]
      ⟨"y", 1, 1⟩ [⟨"xx", 2, 1⟩] (by decide),
   strategy_orders_by_key_ties_by_input.2.1 [⟨"xx", 2, 1⟩, ⟨"y", 1, 1⟩]
      ⟨"xx", 2, 1⟩ [⟨"y", 1, 1⟩] (by decide),
   strategy_orders_by_key_ties_by_input.2.2 [⟨"xx", 2, 1⟩, ⟨"y", 1, 1⟩]
      ⟨"y", 1, 1⟩ [⟨"xx", 2, 1⟩] (by decide)⟩

/-- C9: in the `auto_delete` keep-decision, every member that reaches the
keep-or-delete outcome had readable metadata (members whose stat raised
`OSError` are excluded), and when at most one member survives the exclusions
no deletion is performed for the group (either the group is skipped entirely
or the delete list is empty). -/
theorem unreadable_members_excluded :
    (∀ strategy stat paths k rest,
       auto_delete_group strategy stat paths = some (k, rest) →
       ∀ x, x ∈ k :: rest → stat x.path = some (x.mtime, x.size)) ∧
    (∀ strategy stat paths, (statInfos stat paths).length ≤ 1 →
       auto_delete_group strategy stat paths = none ∨
         ∃ k, auto_delete_group strategy stat paths = some (k, [])) := by
  constructor
  · intro strategy stat paths k rest h x hx
    unfold auto_delete_group at h
    rcases hs : autoSortGroup strategy (statInfos stat paths) with _ | ⟨k0, rest0⟩
    · rw [hs] at h; cases h
    · rw [hs] at h
      simp only [Option.some.injEq, Prod.mk.injEq] at h
      obtain ⟨rfl, rfl⟩ := h
      have hmem : x ∈ statInfos stat paths := by
        have : x ∈ autoSortGroup strategy (statInfos stat paths) := by
          rw [hs]; exact hx
        exact (autoSortGroup_perm strategy (statInfos stat paths)).mem_iff.mp this
      exact statInfos_mem stat paths x hmem
  · intro strategy stat paths hlen
    have hplen : (autoSortGroup strategy (statInfos stat paths)).length ≤ 1 := by
      rw [(autoSortGroup_perm strategy (statInfos stat paths)).length_eq]
      exact hlen
    unfold auto_delete_group
    rcases hs : autoSortGroup strategy (statInfos stat paths) with _ | ⟨k0, rest0⟩
    · exact Or.inl rfl
    · right
      rw [hs] at hplen
      have : rest0 = [] := by
        simp only [List.length_cons] at hplen
        exact List.length_eq_zero.mp (by omega)
      exact ⟨k0, by rw [this]⟩

theorem unreadable_members_excluded_witness :
    (fun p => if p = "a" then some ((1 : Int), (1 : Nat)) else none)
        (⟨"a", 1, 1⟩ : PathInfo).path =
      some ((⟨"a", 1, 1⟩ : PathInfo).mtime, (⟨"a", 1, 1⟩ : PathInfo).size) ∧
    (auto_delete_group "oldest"
        (fun p => if p = "a" then some ((1 : Int), (1 : Nat)) else none)
        ["a", "ghost"] = none ∨
      ∃ k, auto_delete_group "oldest"
        (fun p => if p = "a" then some ((1 : Int), (1 : Nat)) else none)
        ["a", "ghost"] = some (k, [])) :=
  ⟨unreadable_members_excluded.1 "oldest"
      (fun p => if p = "a" then some ((1 : Int), (1 : Nat)) else none)
      ["a", "ghost"] ⟨"a", 1, 1⟩ [] (by decide) ⟨"a", 1, 1⟩ (by decide),
   unreadable_members_excluded.2 "oldest"
      (fun p => if p = "a" then some ((1 : Int), (1 : Nat)) else none)
      ["a", "ghost"] (by decide)⟩

set_option maxRecDepth 10000 in
/-- C4 counterexample: two presentations of the same two groups (both with
two members, so the member counts tie) render to different report text — the
group sort is stable on the input order and has no digest tie-break, so the
input ordering leaks into the output. -/
theorem write_results_order_dependent :
    write_results ⟨fun _ => "T", fun _ => "S", "NOW"⟩ (fun _ => some (1, 1)) "D"
        [("hb", ["x", "y"]), ("ha", ["u", "v"])] ≠
      write_results ⟨fun _ => "T", fun _ => "S", "NOW"⟩ (fun _ => some (1, 1)) "D"
        [("ha", ["u", "v"]), ("hb", ["x", "y"])] := by decide

/-- C4 amended: the Report Builder is deterministic given the input ordering;
reorderings of the input can change the text only where member counts tie
(the group sort is stable with no secondary key), so whenever the groups'
member counts are pairwise distinct, any input ordering yields byte-identical
report text. -/
theorem write_results_deterministic_if_counts_distinct
    (env : RenderEnv) (stat : String → Option (Int × Nat)) (directory : String)
    (l₁ l₂ : List (String × List String)) (hp : l₁.Perm l₂)
    (hnd : (l₁.map (fun g => g.2.length)).Nodup) :
    write_results env stat directory l₁ = write_results env stat directory l₂ := by
  have hdlen : l₁.length = l₂.length := hp.length_eq
  have hsum : (l₁.map (fun g => g.2.length - 1)).sum =
      (l₂.map (fun g => g.2.length - 1)).sum :=
    (hp.map (fun g => g.2.length - 1)).sum_eq
  have hkeys : (l₁.map (fun g : String × List String => -((g.2.length : Int)))).Nodup := by
    have he : (fun g : String × List String => -((g.2.length : Int))) =
        (fun n : Nat => -((n : Int))) ∘ (fun g : String × List String => g.2.length) := rfl
    rw [he, ← List.map_map]
    exact hnd.map (fun a b hab => by omega)
  have hsorted : sortGroupsForReport l₁ = sortGroupsForReport l₂ :=
    sortByKey_eq_of_perm _ l₁ l₂ hp hkeys
  have hempty : l₁.isEmpty = l₂.isEmpty := by
    have h1 : l₁.isEmpty = decide (l₁.length = 0) := by cases l₁ <;> simp
    have h2 : l₂.isEmpty = decide (l₂.length = 0) := by cases l₂ <;> simp
    rw [h1, h2, hdlen]
  simp only [write_results]
  rw [hsorted, hdlen, hsum, hempty]

set_option maxRecDepth 10000 in
theorem write_results_deterministic_witness :
    write_results ⟨fun _ => "T", fun _ => "S", "NOW"⟩ (fun _ => some (1, 1)) "D"
        [("ha", ["u", "v"]), ("hb", ["x", "y", "z"])] =
      write_results ⟨fun _ => "T", fun _ => "S", "NOW"⟩ (fun _ => some (1, 1)) "D"
        [("hb", ["x", "y", "z"]), ("ha", ["u", "v"])] :=
  write_results_deterministic_if_counts_distinct ⟨fun _ => "T", fun _ => "S", "NOW"⟩
    (fun _ => some (1, 1)) "D"
    [("ha", ["u", "v"]), ("hb", ["x", "y", "z"])]
    [("hb", ["x", "y", "z"]), ("ha", ["u", "v"])]
    (by decide) (by decide)

/-- C6 counterexample: two groups with tying member counts are rendered in
input order even when the digest order says otherwise (`"ha" < "hb"` yet the
`"hb"` group stays first), and two members with tying modification times are
listed in input order even when the path order says otherwise — neither sort
has the tie-break the claim states. -/
theorem report_order_ties_not_by_digest_or_path :
    sortGroupsForReport [("hb", ["x", "y"]), ("ha", ["u", "v"])] =
      [("hb", ["x", "y"]), ("ha", ["u", "v"])] ∧
    strLt "ha" "hb" = true ∧
    (["x", "y"] : List String).length = (["u", "v"] : List String).length ∧
    groupSorted (fun _ => some (5, 1)) ["pb", "pa"] =
      [⟨"pb", 5, 1⟩, ⟨"pa", 5, 1⟩] ∧
    strLt "pa" "pb" = true := by
  exact ⟨by decide, by decide, by decide, by decide, by decide⟩

/-- C6 amended: the report orders groups by descending member count with
count ties left in input order (stable sort, no digest tie-break), and orders
the members of a group by ascending modification time with mtime ties left in
input order (no path tie-break). -/
theorem report_order_by_count_and_mtime_ties_by_input :
    (∀ (dups : List (String × List String)),
       (sortGroupsForReport dups).Pairwise (fun g h => h.2.length ≤ g.2.length)) ∧
    (∀ (dups : List (String × List String)) (n : Nat),
       (sortGroupsForReport dups).filter (fun g => g.2.length = n) =
         dups.filter (fun g => g.2.length = n)) ∧
    (∀ (stat : String → Option (Int × Nat)) (paths : List String),
       (groupSorted stat paths).Pairwise (fun a b => a.mtime ≤ b.mtime)) ∧
    (∀ (stat : String → Option (Int × Nat)) (paths : List String) (m : Int),
       (groupSorted stat paths).filter (fun e => e.mtime = m) =
         (groupEntries stat paths).filter (fun e => e.mtime = m)) := by
  refine ⟨?_, ?_, ?_, ?_⟩
  · intro dups
    have h := sortByKey_pairwise (fun g : String × List String => -((g.2.length : Int))) dups
    exact h.imp (fun hab => by omega)
  · intro dups n
    have h1 := sortByKey_filter (fun g : String × List String => -((g.2.length : Int)))
      (-((n : Int))) dups
    have e1 : ∀ (l : List (String × List String)),
        l.filter (fun g => -((g.2.length : Int)) = -((n : Int))) =
          l.filter (fun g => g.2.length = n) := fun l =>
      List.filter_congr (fun x _ => by rw [decide_eq_decide]; omega)
    rw [← e1 (sortGroupsForReport dups), ← e1 dups]
    exact h1
  · intro stat paths
    exact sortByKey_pairwise (fun e : PathInfo => e.mtime) (groupEntries stat paths)
  · intro stat paths m
    exact sortByKey_filter (fun e : PathInfo => e.mtime) m (groupEntries stat paths)

/-- C10: a group member whose metadata read fails at render time is retained
(not excluded) with modification time 0 and size 0; when every other member
has a positive modification time it sorts first, so it is the entry labelled
`[ORIGINAL]`, the group's displayed size is 0, and the group contributes 0 to
the reclaimable-bytes total.  The same sorting logic drives the interactive
group display. -/
theorem failed_stat_member_shown_as_original
    (stat : String → Option (Int × Nat)) (paths : List String) (pBad : String)
    (hmem : pBad ∈ paths) (hbad : stat pBad = none)
    (hgood : ∀ q, q ∈ paths → q ≠ pBad → ∃ m s, stat q = some (m, s) ∧ 0 < m) :
    (groupEntries stat paths).length = paths.length ∧
    (⟨pBad, 0, 0⟩ : PathInfo) ∈ groupEntries stat paths ∧
    (groupSorted stat paths).head? = some ⟨pBad, 0, 0⟩ ∧
    groupFileSize stat paths = 0 ∧
    groupWasted stat paths = 0 := by
  have hlen : (groupEntries stat paths).length = paths.length := List.length_map _ _
  have hbadmem : (⟨pBad, 0, 0⟩ : PathInfo) ∈ groupEntries stat paths :=
    List.mem_map.mpr ⟨pBad, hmem, by rw [hbad]⟩
  have hchar : ∀ e, e ∈ groupEntries stat paths →
      0 ≤ e.mtime ∧ (e.mtime = 0 → e = ⟨pBad, 0, 0⟩) := by
    intro e he
    rcases List.mem_map.mp he with ⟨q, hq, hqe⟩
    by_cases hqp : q = pBad
    · subst hqp
      rw [hbad] at hqe
      rw [← hqe]
      exact ⟨le_refl 0, fun _ => rfl⟩
    · rcases hgood q hq hqp with ⟨m, sz, hstat, hpos⟩
      have he2 : e = ⟨q, m, sz⟩ := by rw [← hqe, hstat]
      subst he2
      exact ⟨le_of_lt hpos, fun h0 => by simp only at h0; omega⟩
  have hhead : (groupSorted stat paths).head? = some ⟨pBad, 0, 0⟩ := by
    rcases hs : groupSorted stat paths with _ | ⟨k, rest⟩
    · exfalso
      have : groupEntries stat paths = [] := sortByKey_eq_nil _ _ hs
      rw [this] at hbadmem
      cases hbadmem
    · obtain ⟨hkmem, hminp, -⟩ := sortByKey_head _ (groupEntries stat paths) k rest hs
      have h0 : k.mtime = 0 := le_antisymm (hminp _ hbadmem) (hchar k hkmem).1
      rw [(hchar k hkmem).2 h0] at hs ⊢
      simp
  refine ⟨hlen, hbadmem, hhead, ?_, ?_⟩
  · unfold groupFileSize
    rcases hs : groupSorted stat paths with _ | ⟨k, rest⟩
    · rfl
    · rw [hs] at hhead
      simp only [List.head?_cons, Option.some.injEq] at hhead
      rw [hhead]
  · unfold groupWasted groupFileSize
    rcases hs : groupSorted stat paths with _ | ⟨k, rest⟩
    · simp
    · rw [hs] at hhead
      simp only [List.head?_cons, Option.some.injEq] at hhead
      rw [hhead]
      simp

theorem failed_stat_member_witness :
    (groupEntries (fun p => if p = "bad" then none else some (7, 3))
        ["good1", "bad", "good2"]).length = (["good1", "bad", "good2"] : List String).length ∧
    (⟨"bad", 0, 0⟩ : PathInfo) ∈
      groupEntries (fun p => if p = "bad" then none else some (7, 3))
        ["good1", "bad", "good2"] ∧
    (groupSorted (fun p => if p = "bad" then none else some (7, 3))
        ["good1", "bad", "good2"]).head? = some ⟨"bad", 0, 0⟩ ∧
    groupFileSize (fun p => if p = "bad" then none else some (7, 3))
        ["good1", "bad", "good2"] = 0 ∧
    groupWasted (fun p => if p = "bad" then none else some (7, 3))
        ["good1", "bad", "good2"] = 0 :=
  failed_stat_member_shown_as_original
    (fun p => if p = "bad" then none else some (7, 3))
    ["good1", "bad", "good2"] "bad" (by decide) (by decide)
    (by
      intro q hq hne
      simp only [List.mem_cons, List.not_mem_nil, or_false] at hq
      rcases hq with rfl | rfl | rfl
      · exact ⟨7, 3, rfl, by decide⟩
      · exact absurd rfl hne
      · exact ⟨7, 3, rfl, by decide⟩)

/-- C8: `delete_file` is total — it either succeeds or returns
`succeeded = false` with an `"Error: ..."` detail — and a deletion batch
processes every file (a failure never aborts the loop), with the success
counter and freed-space counter reflecting exactly the files whose deletion
succeeded. -/
theorem deletion_failures_reported_and_batch_continues :
    (∀ (fs : FsOps) (timestamp filepath : String) (use_trash : Bool),
       (delete_file fs timestamp filepath use_trash).1 = true ∨
         ∃ e, delete_file fs timestamp filepath use_trash = (false, "Error: " ++ e)) ∧
    (∀ (σ : Type) (step : σ → String → (Bool × String) × σ) (fsz : Nat) (s : σ)
       (paths : List String),
       (deletionTrace step s paths).map (fun o => o.1) = paths ∧
       runDeletions step fsz s paths =
         (((deletionTrace step s paths).filter (fun o => o.2.1)).length,
          fsz * ((deletionTrace step s paths).filter (fun o => o.2.1)).length)) := by
  constructor
  · intro fs timestamp filepath use_trash
    cases use_trash
    · rcases hrm : fs.removeResult filepath with e | u
      · exact Or.inr ⟨e, by simp [delete_file, hrm]⟩
      · exact Or.inl (by simp [delete_file, hrm])
    · rcases hmv : fs.moveResult filepath
          (chooseTrashPath fs.trashContents timestamp (basename filepath)) with e | u
      · exact Or.inr ⟨e, by simp [delete_file, hmv]⟩
      · exact Or.inl (by simp [delete_file, hmv])
  · intro σ step fsz s paths
    induction paths generalizing s with
    | nil => simp [deletionTrace, runDeletions]
    | cons p ps ih =>
        obtain ⟨ih1, ih2⟩ := ih (step s p).2
        constructor
        · simp only [deletionTrace, List.map_cons, ih1]
        · simp only [deletionTrace, runDeletions, ih2, List.filter_cons]
          by_cases hsucc : (step s p).1.1 = true
          · simp only [hsucc, if_true, List.length_cons, Prod.mk.injEq]
            exact ⟨trivial, (Nat.mul_succ fsz _).symm⟩
          · simp only [Bool.not_eq_true] at hsucc
            simp [hsucc]

end DuplFiles
